import Mathlib

/-!
Verification of the ResumeForge keyword-extraction / relevance-scoring engine.

Shallow embedding of the Python sources:
  src/resume/keyword_extractor.py      (KeywordExtractor)
  src/resume/relevance_scorer.py       (RelevanceScorer)
  src/resume/generator.py              (ResumeGenerator.customize_for_role)
  src/backend/services/scoring.py      (ScoringService.calculate_ats_score)
  src/services/scoring_service.py      (legacy ScoringService.calculate_ats_score)
  src/backend/config/patterns.py       (PRIORITY_PATTERNS, STOP_WORDS, HIGH_PRIORITY_TERMS)

Python strings are modeled as Lean `String` over ASCII (`str.lower` is the
ASCII lowering), Python floats as exact rationals `ℚ`, and Python dicts as
insertion-ordered association lists with unique keys.
-/

namespace ResumeForge

/-! ## Python string primitives -/

/-- ASCII lowering of a single character, as Python `str.lower` acts on ASCII. -/
def lowerChar (c : Char) : Char :=
  if 65 ≤ c.toNat ∧ c.toNat ≤ 90 then Char.ofNat (c.toNat + 32) else c

/-- Python `s.lower()` (ASCII model). -/
def lowerStr (s : String) : String :=
  ⟨s.data.map lowerChar⟩

/-- Python substring test `needle in hay` on character lists
(the empty needle is contained in everything, as in Python). -/
def containsSub (hay needle : List Char) : Bool :=
  (List.range (hay.length + 1)).any fun i => needle.isPrefixOf (hay.drop i)

/-- Scan of `pyCount` over a non-empty needle; `fuel ≥ hay.length` makes the
recursion total (every step drops at least one character). -/
def pyCountAux (nd : List Char) : Nat → List Char → Nat
  | 0, _ => 0
  | _ + 1, [] => 0
  | fuel + 1, c :: t =>
    if nd.isPrefixOf (c :: t) then
      1 + pyCountAux nd fuel ((c :: t).drop nd.length)
    else
      pyCountAux nd fuel t

/-- Python `hay.count(needle)`: number of non-overlapping occurrences,
scanning left to right; an empty needle counts `len(hay) + 1` times. -/
def pyCount (hay nd : List Char) : Nat :=
  match nd with
  | [] => hay.length + 1
  | n :: nd' => pyCountAux (n :: nd') hay.length hay

/-- Python `hay.find(needle)` restricted to the found case:
first index where `needle` occurs. -/
def pyFind (hay needle : List Char) : Option Nat :=
  (List.range (hay.length + 1)).find? fun i => needle.isPrefixOf (hay.drop i)

/-- Python slice `l[a:b]` for `0 ≤ a ≤ b` (indices clamped to the list). -/
def pySlice (l : List Char) (a b : Nat) : List Char :=
  (l.drop a).take (b - a)

/-! ## Insertion-ordered dictionaries (Python `dict`) -/

/-- First value stored under key `k` (Python `d.get(k)` / `d[k]`). -/
def alGet {α : Type} (d : List (String × α)) (k : String) : Option α :=
  (d.find? fun p => p.1 = k).map Prod.snd

/-- Python `d[k] = v`: replace in place when the key is present
(keeping its position, as Python dicts do), append otherwise. -/
def alSet {α : Type} : List (String × α) → String → α → List (String × α)
  | [], k, v => [(k, v)]
  | p :: t, k, v => if p.1 = k then (k, v) :: t else p :: alSet t k v

/-- Python `d[k] = d.get(k, 0) + inc`, as used to accumulate keyword scores. -/
def bump (d : List (String × Nat)) (k : String) (inc : Nat) : List (String × Nat) :=
  alSet d k (((alGet d k).getD 0) + inc)

theorem alGet_alSet_self {α : Type} (d : List (String × α)) (k : String) (v : α) :
    alGet (alSet d k v) k = some v := by
  induction d with
  | nil => simp [alSet, alGet, List.find?]
  | cons p t ih =>
    by_cases h : p.1 = k
    · simp [alSet, h, alGet, List.find?]
    · simp only [alSet, if_neg h]
      simpa [alGet, List.find?, h] using ih

theorem alGet_alSet_ne {α : Type} (d : List (String × α)) (k k' : String) (v : α)
    (h : k ≠ k') : alGet (alSet d k v) k' = alGet d k' := by
  induction d with
  | nil => simp [alSet, alGet, List.find?, h]
  | cons p t ih =>
    by_cases hp : p.1 = k
    · simp [alSet, hp, alGet, List.find?, h, hp ▸ h]
    · simp only [alSet, if_neg hp]
      by_cases hp' : p.1 = k'
      · simp [alGet, List.find?, hp']
      · simpa [alGet, List.find?, hp'] using ih

theorem alSet_keys_subset {α : Type} (d : List (String × α)) (k : String) (v : α) :
    ((alSet d k v).map Prod.fst) ⊆ k :: d.map Prod.fst := by
  induction d with
  | nil =>
    intro x hx
    simp [alSet] at hx
    simp [hx]
  | cons p t ih =>
    intro x hx
    by_cases h : p.1 = k
    · simp only [alSet, if_pos h, List.map_cons] at hx
      rcases List.mem_cons.mp hx with hx | hx
      · simp [hx]
      · simp only [List.map_cons, List.mem_cons]
        right; right; exact hx
    · simp only [alSet, if_neg h, List.map_cons] at hx
      rcases List.mem_cons.mp hx with hx | hx
      · simp only [List.map_cons, List.mem_cons]
        right; left; exact hx
      · have hy := ih hx
        rcases List.mem_cons.mp hy with hy | hy
        · simp [hy]
        · simp only [List.map_cons, List.mem_cons]
          right; right; exact hy

theorem alSet_nodup_keys {α : Type} (d : List (String × α)) (k : String) (v : α)
    (h : (d.map Prod.fst).Nodup) : ((alSet d k v).map Prod.fst).Nodup := by
  induction d with
  | nil => simp [alSet]
  | cons p t ih =>
    simp only [List.map_cons, List.nodup_cons] at h
    by_cases hp : p.1 = k
    · simp only [alSet, if_pos hp, List.map_cons, List.nodup_cons]
      exact ⟨hp ▸ h.1, h.2⟩
    · simp only [alSet, if_neg hp, List.map_cons, List.nodup_cons]
      refine ⟨fun hc => ?_, ih h.2⟩
      have hm := alSet_keys_subset t k v hc
      rcases List.mem_cons.mp hm with he | he
      · exact hp he
      · exact h.1 he

theorem alSet_alSet_same {α : Type} (d : List (String × α)) (k : String) (v : α) :
    alSet (alSet d k v) k v = alSet d k v := by
  induction d with
  | nil => simp [alSet]
  | cons p t ih =>
    by_cases h : p.1 = k
    · simp [alSet, h]
    · simp [alSet, h, ih]

/-! ## Regular expressions

A small backtracking engine covering exactly the constructs used by the
patterns in `config/patterns.py` and `keyword_extractor.py`: literals,
character classes, concatenation, ordered alternation, greedy `?`, `+`, `*`
and `{lo,hi}` over character classes, greedy `*` over a non-nullable
sub-pattern, word boundaries `\b`, and a single capture group. -/

/-- Python `\w` (ASCII model): letters, digits, underscore. -/
def wordChar (c : Char) : Bool :=
  ('a' ≤ c ∧ c ≤ 'z') ∨ ('A' ≤ c ∧ c ≤ 'Z') ∨ ('0' ≤ c ∧ c ≤ '9') ∨ c = '_'

/-- Python `\s` (ASCII model). -/
def spaceChar (c : Char) : Bool :=
  c = ' ' ∨ c = '\t' ∨ c = '\n' ∨ c = '\r' ∨ c = '\x0b' ∨ c = '\x0c'

/-- Python `\d` (ASCII model). -/
def digitChar (c : Char) : Bool := '0' ≤ c ∧ c ≤ '9'

/-- `[A-Z]`. -/
def upperAZ (c : Char) : Bool := 65 ≤ c.toNat ∧ c.toNat ≤ 90

/-- `[a-z]`. -/
def lowerAZ (c : Char) : Bool := 'a' ≤ c ∧ c ≤ 'z'

/-- Regular-expression syntax used by the source's patterns. -/
inductive Rx : Type where
  | eps : Rx
  | lit (s : List Char) : Rx
  | cls (p : Char → Bool) : Rx
  | seq (a b : Rx) : Rx
  | alt (a b : Rx) : Rx
  | opt (a : Rx) : Rx
  | plus (p : Char → Bool) : Rx
  | star (p : Char → Bool) : Rx
  | rep (p : Char → Bool) (lo hi : Nat) : Rx
  | starNE (a : Rx) : Rx
  | wb : Rx
  | grp (a : Rx) : Rx

/-- `\b` at position `i` of `cs`: exactly one neighbouring side is a word char. -/
def atWordBoundary (cs : List Char) (i : Nat) : Bool :=
  (match cs.get? (i - 1), i with
   | some c, _ + 1 => wordChar c
   | _, _ => false) ≠
  (match cs.get? i with
   | some c => wordChar c
   | none => false)

/-- Length of the maximal run of characters satisfying `p` starting at `i`. -/
def maxRun (p : Char → Bool) : List Char → Nat
  | [] => 0
  | c :: t => if p c then maxRun p t + 1 else 0

/-- All end positions (with the capture-group span, when the group matched)
that a match of `r` starting at position `i` of `cs` can reach, in Python's
backtracking priority order.  `fuel` bounds the recursion depth (structural,
so the kernel can evaluate it); any fuel above `cs.length` plus the nesting
depth of `r` is exact, since `starNE` bodies consume at least one character
per iteration. -/
def matchR : Nat → Rx → List Char → Nat → List (Nat × Option (Nat × Nat))
  | 0, _, _, _ => []
  | fuel + 1, r, cs, i =>
    match r with
    | .eps => [(i, none)]
    | .lit s => if s.isPrefixOf (cs.drop i) then [(i + s.length, none)] else []
    | .cls p =>
      match (cs.drop i).head? with
      | some c => if p c then [(i + 1, none)] else []
      | none => []
    | .seq a b =>
      (matchR fuel a cs i).flatMap fun q =>
        (matchR fuel b cs q.1).map fun q2 =>
          (q2.1, match q2.2 with | some sp => some sp | none => q.2)
    | .alt a b => matchR fuel a cs i ++ matchR fuel b cs i
    | .opt a => matchR fuel a cs i ++ [(i, none)]
    | .plus p =>
      let m := maxRun p (cs.drop i)
      (List.range m).map fun d => (i + m - d, none)
    | .star p =>
      let m := maxRun p (cs.drop i)
      (List.range (m + 1)).map fun d => (i + m - d, none)
    | .rep p lo hi =>
      let m := min (maxRun p (cs.drop i)) hi
      (List.range (m + 1)).filterMap fun d =>
        if lo ≤ m - d then some (i + (m - d), none) else none
    | .starNE a =>
      ((matchR fuel a cs i).filter fun q => i < q.1).flatMap
        (fun q => matchR fuel (.starNE a) cs q.1) ++ [(i, none)]
    | .wb => if atWordBoundary cs i then [(i, none)] else []
    | .grp a => (matchR fuel a cs i).map fun q => (q.1, some (i, q.1))

/-- The segment `cs[a:b]`. -/
def seg (cs : List Char) (a b : Nat) : List Char := pySlice cs a b

/-- One scanning step of `re.findall`: find the leftmost match at or after
position `i`, emit its capture group (or the whole match when the pattern has
no group), and continue after it. -/
def findallAux (r : Rx) (cs : List Char) : Nat → Nat → List (List Char)
  | 0, _ => []
  | fuel + 1, i =>
    if i > cs.length then []
    else
      match matchR (cs.length + 64) r cs i with
      | [] => findallAux r cs fuel (i + 1)
      | (j, cap) :: _ =>
        let piece := match cap with
          | some sp => seg cs sp.1 sp.2
          | none => seg cs i j
        if j > i then piece :: findallAux r cs fuel j
        else piece :: findallAux r cs fuel (i + 1)

/-- Python `re.findall(r, s)` (returning the capture group per match when the
pattern has one, the whole match otherwise). -/
def findall (r : Rx) (cs : List Char) : List (List Char) :=
  findallAux r cs (cs.length + 2) 0

/-! ## Pattern helpers and the lexicon (`config/patterns.py`) -/

/-- A literal string pattern. -/
def rlit (s : String) : Rx := .lit s.data

/-- Ordered alternation `a1|a2|...` (Python tries alternatives left to right). -/
def ralt : List Rx → Rx
  | [] => .lit []
  | [r] => r
  | r :: rest => .alt r (ralt rest)

/-- Concatenation of a list of patterns. -/
def rcat : List Rx → Rx
  | [] => .eps
  | [r] => r
  | r :: rest => .seq r (rcat rest)

/-- `\b(a1|a2|...)\b` — the shape of every entry of `PRIORITY_PATTERNS`. -/
def wgrp (alts : List Rx) : Rx := rcat [.wb, .grp (ralt alts), .wb]

/-- An optional literal, e.g. the `s?` plural suffixes. -/
def ropt (s : String) : Rx := .opt (rlit s)

/-- `[mk]` in `\$\d+[mk]?`. -/
def mkChar (c : Char) : Bool := c = 'm' ∨ c = 'k'

/-- `[^.!?\n]` — the capture class of the requirement / tech-stack patterns. -/
def notSentencePunct (c : Char) : Bool := ¬(c = '.' ∨ c = '!' ∨ c = '?' ∨ c = '\n')

/-- The dot / dash / slash separator class of the word-token pattern. -/
def sepChar (c : Char) : Bool := c = '.' ∨ c = '-' ∨ c = '/'

/-- `PRIORITY_PATTERNS` from `config/patterns.py`, in order. -/
def PRIORITY_PATTERNS : List Rx := [
  wgrp [rlit "fintech", rlit "financial technology", rcat [rlit "payment", ropt "s"],
        rlit "trading", rlit "defi", rlit "blockchain", rlit "cryptocurrency", rlit "crypto"],
  wgrp [rlit "compliance", rlit "kyc", rlit "aml", rlit "regulatory", rlit "custody",
        rcat [rlit "oracle", ropt "s"], rlit "yield"],
  wgrp [rlit "tvl", rcat [rlit "wrapped token", ropt "s"], rlit "proof of reserve",
        rlit "evm", rlit "layer 2", rcat [rlit "smart contract", ropt "s"]],
  wgrp [rlit "ethereum", rlit "polygon", rlit "bitcoin", rlit "web3", rlit "metamask",
        rlit "chainlink"],
  wgrp [rlit "engineering manager", rlit "tech lead", rlit "architect", rlit "cto",
        rlit "director"],
  wgrp [rlit "team lead", rlit "leadership", rlit "management", rlit "mentoring",
        rlit "scaling"],
  wgrp [rlit "python", rlit "javascript", rlit "typescript", rlit "react",
        rcat [rlit "node", ropt ".", rlit "js"], rlit "django", rlit "flask"],
  wgrp [rlit "c#", rlit ".net", rlit "asp.net", rlit "java", rlit "spring",
        rlit "golang", rlit "rust", rlit "solidity"],
  wgrp [rlit "aws", rlit "azure", rlit "gcp", rlit "docker", rlit "kubernetes",
        rlit "microservices"],
  wgrp [rlit "api", rlit "rest", rlit "restful", rlit "graphql", rlit "grpc",
        rlit "websocket"],
  wgrp [rlit "ci/cd", rlit "devops", rlit "jenkins", rlit "github actions", rlit "gitlab"],
  wgrp [rlit "postgresql", rlit "mysql", rlit "mongodb", rlit "redis",
        rlit "elasticsearch", rlit "influxdb"],
  wgrp [rlit "sql server", rlit "oracle", rlit "cassandra", rlit "dynamodb",
        rlit "snowflake"],
  wgrp [rlit "security", rlit "oauth", rlit "jwt", rlit "encryption",
        rlit "authentication", rlit "authorization"],
  wgrp [rlit "pci dss", rlit "sox", rlit "gdpr", rlit "ccpa", rlit "hipaa", rlit "soc 2"],
  wgrp [rlit "agile", rlit "scrum", rlit "kanban", rlit "lean", rlit "safe", rlit "xp",
        rlit "tdd", rlit "bdd"],
  wgrp [rlit "revenue", rlit "cost reduction", rlit "efficiency", rlit "performance",
        rlit "scale", rlit "growth"],
  wgrp [rlit "million", rlit "billion", rlit "percent",
        rcat [rlit "$", .plus digitChar, .opt (.cls mkChar), .wb],
        rcat [.plus digitChar, ropt "+", .star spaceChar, rlit "year", ropt "s"]],
  wgrp [rlit "uptime", rlit "sla", rlit "latency", rlit "throughput", rlit "scalability"]
]

/-- `STOP_WORDS` from `config/patterns.py`. -/
def STOP_WORDS : List String := [
  "the", "and", "with", "for", "you", "will", "are", "have", "our", "this", "that", "from",
  "they", "been", "would", "there", "their", "what", "said", "each", "which", "were", "than",
  "but", "not", "all", "any", "can", "had", "was", "one", "your", "how", "use", "word", "may",
  "she", "oil", "its", "now", "him", "could", "did", "get", "has", "his", "her", "let", "put",
  "too", "also", "back", "call", "came", "come", "just", "like", "long", "look", "made", "make",
  "many", "over", "such", "take", "very", "well", "work", "who", "where", "when", "why", "some",
  "about", "into", "through", "during", "before", "after", "above", "below", "between", "among",
  "able", "team", "role", "position", "company", "business", "opportunity", "candidate"
]

/-- `HIGH_PRIORITY_TERMS` from `config/patterns.py`. -/
def HIGH_PRIORITY_TERMS : List String := [
  "fintech", "blockchain", "defi", "python", "javascript", "react",
  "aws", "leadership", "management", "api", "postgresql", "docker",
  "microservices", "payments", "compliance", "security", "agile",
  "scrum", "ethereum", "trading", "yield", "tvl", "custody"
]

/-! ## Keyword extractor (`keyword_extractor.py`) -/

/-- `\b[A-Z]{2,6}\b` — acronyms, matched against the original-case text. -/
def acronymRx : Rx := rcat [.wb, .rep upperAZ 2 6, .wb]

/-- The word-token pattern: lowercase runs joined by dots, dashes or slashes,
between word boundaries. -/
def tokenRx : Rx :=
  rcat [.wb, .plus lowerAZ, .starNE (rcat [.cls sepChar, .plus lowerAZ]), .wb]

/-- The three requirement-phrase patterns of `_extract_requirement_phrases`. -/
def requirementPatterns : List Rx := [
  rcat [ralt [rlit "required", rlit "must have", rlit "experience with",
              rlit "proficient in", rlit "knowledge of", rlit "familiar with",
              rlit "expertise in"],
        .plus spaceChar, .grp (.plus notSentencePunct)],
  rcat [ralt [rlit "skills in", rlit "background in", rlit "strong", rlit "solid",
              rlit "deep understanding of", rlit "experience in"],
        .plus spaceChar, .grp (.plus notSentencePunct)],
  rcat [ralt [rlit "proficiency", rlit "proficient", rlit "expert", rlit "advanced",
              rlit "intermediate"],
        rlit " ",
        ralt [rlit "in", rlit "with", rlit "knowledge of"],
        .plus spaceChar, .grp (.plus notSentencePunct)]
]

/-- The two tech-stack patterns of `_extract_tech_stack`. -/
def techStackPatterns : List Rx := [
  rcat [ralt [rlit "tech stack", rlit "technology stack", rlit "technologies",
              rlit "tools", rcat [rlit "framework", ropt "s"]],
        rlit ":", .star spaceChar, .grp (.plus notSentencePunct)],
  rcat [ralt [rlit "using", rlit "working with", rlit "built with"],
        rlit ":", .star spaceChar, .grp (.plus notSentencePunct)]
]

/-- The acronym denylist of `_extract_technical_terms`. -/
def nonTechnical : List String :=
  ["the", "and", "for", "you", "are", "our", "inc", "llc", "corp", "ltd"]

/-- `_extract_priority_keywords`: each match of pattern `i` adds
`len(PRIORITY_PATTERNS) - i` to the matched keyword's score. -/
def extractPriorityKeywords (textLower : List Char)
    (m0 : List (String × Nat)) : List (String × Nat) :=
  PRIORITY_PATTERNS.enum.foldl
    (fun m ip =>
      (findall ip.2 textLower).foldl
        (fun m' mt => bump m' ⟨mt⟩ (PRIORITY_PATTERNS.length - ip.1)) m)
    m0

/-- `_extract_technical_terms`: acronyms from the original-case text, lowered,
excluding the denylist; each adds 1. -/
def extractTechnicalTerms (original : List Char)
    (m0 : List (String × Nat)) : List (String × Nat) :=
  (findall acronymRx original).foldl
    (fun m term =>
      let termLower := lowerStr ⟨term⟩
      if termLower ∈ nonTechnical then m else bump m termLower 1)
    m0

/-- Tokenize a captured phrase and bump every token longer than 2 by `inc`
(shared body of the requirement-phrase and tech-stack passes). -/
def bumpTerms (inc : Nat) (m0 : List (String × Nat)) (captured : List Char) :
    List (String × Nat) :=
  (findall tokenRx captured).foldl
    (fun m term => if term.length > 2 then bump m ⟨term⟩ inc else m)
    m0

/-- `_extract_requirement_phrases`: every token of every captured requirement
phrase adds 3. -/
def extractRequirementPhrases (textLower : List Char)
    (m0 : List (String × Nat)) : List (String × Nat) :=
  requirementPatterns.foldl
    (fun m pat => (findall pat textLower).foldl (bumpTerms 3) m)
    m0

/-- `_extract_tech_stack`: every token of every captured tech-stack list adds 2. -/
def extractTechStack (textLower : List Char)
    (m0 : List (String × Nat)) : List (String × Nat) :=
  techStackPatterns.foldl
    (fun m pat => (findall pat textLower).foldl (bumpTerms 2) m)
    m0

/-- The extractor's accumulated score map after the four passes. -/
def extractScores (job_description : String) : List (String × Nat) :=
  let textLower := (lowerStr job_description).data
  extractTechStack textLower
    (extractRequirementPhrases textLower
      (extractTechnicalTerms job_description.data
        (extractPriorityKeywords textLower [])))

/-- `_filter_keywords`: drop stop words, tokens of length ≤ 2 and scores ≤ 0,
keeping the score map's insertion order. -/
def filterKeywords (m : List (String × Nat)) : List String :=
  (m.filter fun p => lowerStr p.1 ∉ STOP_WORDS ∧ p.1.length > 2 ∧ p.2 > 0).map Prod.fst

/-- Stable insertion into a descending list: `x` goes before the first element
whose key is ≤ its own, so among equal keys earlier elements stay first. -/
def insertDesc {α β : Type} [LinearOrder β] (key : α → β) (x : α) :
    List α → List α
  | [] => [x]
  | h :: t => if key h ≤ key x then x :: h :: t else h :: insertDesc key x t

/-- Python's stable `sorted(..., reverse=True)` / `list.sort(reverse=True)`:
descending by key, ties keep their original relative order. -/
def insSortDesc {α β : Type} [LinearOrder β] (key : α → β) : List α → List α
  | [] => []
  | x :: xs => insertDesc key x (insSortDesc key xs)

/-- `KeywordExtractor.MAX_KEYWORDS`. -/
def MAX_KEYWORDS : Nat := 60

/-- `KeywordExtractor.extract` / `extract_keywords_from_job_description`:
run the four passes, filter, sort by score descending (stable), truncate to 60. -/
def extract (job_description : String) : List String :=
  let m := extractScores job_description
  let filtered := filterKeywords m
  (insSortDesc (fun k => (alGet m k).getD 0) filtered).take MAX_KEYWORDS

/-! ## Resume data model

Python dict-shaped resume data, with `none` modelling an absent key.
Fields read through `.get(key, default)` in the source are modelled with the
default already applied where the source never distinguishes absence. -/

/-- An achievement's optional `metrics` object; Python truthiness of the
present-and-non-empty dict is modelled by `Option.isSome`. -/
structure Metrics where
  value : ℚ
  mtype : String
deriving DecidableEq, Repr

/-- An achievement: `{text, keywords, metrics?, relevance_score?}`. -/
structure Achievement where
  text : String := ""
  keywords : List String := []
  metrics : Option Metrics := none
  relevance_score : Option ℚ := none
deriving DecidableEq, Repr

/-- An experience entry. -/
structure Job where
  title : String := ""
  company : String := ""
  description : String := ""
  achievements : List Achievement := []
deriving DecidableEq, Repr

/-- An education entry (used by the legacy text extraction). -/
structure Education where
  degree : String := ""
  school : String := ""
  description : String := ""
deriving DecidableEq, Repr

/-- A project entry. -/
structure Project where
  name : String := ""
  description : String := ""
  keywords : List String := []
  technologies : List String := []
deriving DecidableEq, Repr

/-- A skills category: either `level → list` or a flat list (the source
probes the runtime type). -/
inductive SkillCategory : Type where
  | leveled (levels : List (String × List String)) : SkillCategory
  | flat (skills : List String) : SkillCategory
deriving DecidableEq, Repr

/-- The summary section. -/
structure Summary where
  headline : Option String := none
  bullets : Option (List String) := none
deriving DecidableEq, Repr

/-- Top-level resume mapping; `none` = key absent. -/
structure ResumeData where
  personal : Option (List (String × String)) := none
  summary : Option Summary := none
  experience : Option (List Job) := none
  skills : Option (List (String × SkillCategory)) := none
  education : Option (List Education) := none
  projects : Option (List Project) := none
  keywords : Option (List (String × List String)) := none
deriving DecidableEq, Repr

/-! ## Relevance scorer (`relevance_scorer.py`) -/

/-- The `requirement_contexts` list of `_calculate_keyword_weights`. -/
def requirement_contexts : List String :=
  ["required", "must have", "essential", "mandatory",
   "experience with", "proficient in", "expertise in"]

/-- The requirement-context loop of `_calculate_keyword_weights`: walk the
contexts in order; for the first context present in the job description whose
200-character window (from the context's first occurrence) contains the
keyword, add 0.5 and break. -/
def ctxBonus (jd : List Char) (kwLower : List Char) : List String → ℚ
  | [] => 0
  | c :: rest =>
    if containsSub jd c.data then
      let context_start := (pyFind jd c.data).getD 0
      let context_end := context_start + 200
      if containsSub (pySlice jd context_start context_end) kwLower then (0.5 : ℚ)
      else ctxBonus jd kwLower rest
    else ctxBonus jd kwLower rest

/-- The per-keyword body of `_calculate_keyword_weights` (the job description
is already lowercased at scorer construction). -/
def weightFor (jd : String) (keyword : String) : ℚ :=
  let kw_lower := lowerStr keyword
  let w1 : ℚ := 1.0
  let occurrences := pyCount jd.data kw_lower.data
  let w2 := if occurrences > 1 then w1 + min ((occurrences : ℚ) * 0.2) 1.0 else w1
  let w3 := w2 + ctxBonus jd.data kw_lower.data requirement_contexts
  if kw_lower ∈ HIGH_PRIORITY_TERMS then w3 + 0.3 else w3

/-- `_calculate_keyword_weights`: a dict keyed by the lowercased keywords. -/
def calcKeywordWeights (role_keywords : List String) (jd : String) :
    List (String × ℚ) :=
  role_keywords.foldl
    (fun m keyword => alSet m (lowerStr keyword) (weightFor jd keyword))
    []

/-- The `RelevanceScorer` object after `__init__`. -/
structure RelevanceScorer where
  role_keywords : List String
  job_description : String
  keyword_weights : List (String × ℚ)

/-- `RelevanceScorer.__init__`: lowercases the job description and
precomputes the keyword weights. -/
def mkRelevanceScorer (role_keywords : List String) (job_description : String) :
    RelevanceScorer :=
  let jd := lowerStr job_description
  ⟨role_keywords, jd, calcKeywordWeights role_keywords jd⟩

/-- `RelevanceScorer.score_achievement`: tag matches at full weight, free-text
substring matches at 0.7 × weight, +1.0 for a truthy `metrics`. -/
def score_achievement (rs : RelevanceScorer) (a : Achievement) : ℚ :=
  let achievement_text := lowerStr a.text
  let s1 := a.keywords.foldl
    (fun score kw =>
      if lowerStr kw ∈ rs.role_keywords.map lowerStr then
        score + ((alGet rs.keyword_weights (lowerStr kw)).getD 1.0)
      else score)
    0.0
  let s2 := rs.role_keywords.foldl
    (fun score role_kw =>
      if containsSub achievement_text.data (lowerStr role_kw).data then
        score + ((alGet rs.keyword_weights (lowerStr role_kw)).getD 0.5) * 0.7
      else score)
    s1
  if a.metrics.isSome then s2 + 1.0 else s2

/-- Attach a relevance score (Python `achievement['relevance_score'] = q`). -/
def setScore (a : Achievement) (q : ℚ) : Achievement :=
  { a with relevance_score := some q }

/-- The stored score used as the sort key
(`x.get('relevance_score', 0)`). -/
def achKey (a : Achievement) : ℚ := a.relevance_score.getD 0

/-- The first scoring loop of `customize_resume_data`, per job. -/
def scoreJob (rs : RelevanceScorer) (j : Job) : Job :=
  { j with achievements := j.achievements.map fun a => setScore a (score_achievement rs a) }

/-- `achievements[0]['relevance_score'] = 1.0` when the top score is < 1. -/
def forceTop : List Achievement → List Achievement
  | [] => []
  | a :: rest => if achKey a < 1 then setScore a 1.0 :: rest else a :: rest

/-- The sort-and-force loop of `customize_resume_data`, per job. -/
def sortForceJob (j : Job) : Job :=
  { j with achievements := forceTop (insSortDesc achKey j.achievements) }

/-- Net effect of both loops on one experience entry. -/
def processJob (rs : RelevanceScorer) (j : Job) : Job :=
  sortForceJob (scoreJob rs j)

/-- `RelevanceScorer.customize_resume_data`: score every achievement, stable
sort each job's achievements by score descending, force the top one to at
least 1.0, and inject `keywords['role_specific'] = role_keywords[:20]`. -/
def customize_resume_data (rs : RelevanceScorer) (rd : ResumeData) : ResumeData :=
  let rd1 := { rd with experience := rd.experience.map (List.map (processJob rs)) }
  let kws := rd1.keywords.getD []
  { rd1 with keywords := some (alSet kws "role_specific" (rs.role_keywords.take 20)) }

/-- `ResumeGenerator.customize_for_role`: extract keywords when none are
supplied, then run the scorer. -/
def customize_for_role (rd : ResumeData) (job_description : String)
    (role_keywords : Option (List String)) : ResumeData :=
  let rks := match role_keywords with
    | none => extract job_description
    | some l => l
  customize_resume_data (mkRelevanceScorer rks job_description) rd

/-! ## ATS scoring (`backend/services/scoring.py`) -/

/-- Python truthiness of an optional list value (`rd.get(k)` truthy iff the
key is present and the list non-empty). -/
def truthyOptList {α : Type} : Option (List α) → Bool
  | some (_ :: _) => true
  | _ => false

/-- Python truthiness of an optional string (`d.get(k)` truthy iff present
and non-empty). -/
def truthyOptStr : Option String → Bool
  | some s => ¬s.isEmpty
  | none => false

/-- `" ".join(str(part) for part in text_parts if part)`. -/
def joinParts (parts : List String) : String :=
  String.intercalate " " (parts.filter fun s => ¬s.isEmpty)

/-- Flatten a skills mapping the way both `_extract_resume_text`
implementations do: nested `level → list` values and flat lists. -/
def skillsParts (skills : List (String × SkillCategory)) : List String :=
  skills.flatMap fun cat =>
    match cat.2 with
    | .leveled levels => levels.flatMap Prod.snd
    | .flat l => l

/-- `ScoringService._extract_resume_text` (backend version): personal name
and location, summary, experience, skills, projects. -/
def extract_resume_text (rd : ResumeData) : String :=
  joinParts (
    (match rd.personal with
     | some personal => [(alGet personal "name").getD "", (alGet personal "location").getD ""]
     | none => []) ++
    (match rd.summary with
     | some summary => (summary.headline.getD "") :: summary.bullets.getD []
     | none => []) ++
    (match rd.experience with
     | some jobs =>
       jobs.flatMap fun job =>
         [job.title, job.company, job.description] ++
         job.achievements.flatMap fun a => a.text :: a.keywords
     | none => []) ++
    (match rd.skills with
     | some skills => skillsParts skills
     | none => []) ++
    (match rd.projects with
     | some projects =>
       projects.flatMap fun p => [p.name, p.description] ++ p.keywords ++ p.technologies
     | none => []))

/-- Python `int(q)`: truncation toward zero. -/
def pyInt (q : ℚ) : ℤ := if q < 0 then -⌊-q⌋ else ⌊q⌋

/-- Python `round(q, 2)` on the exact-rational model (round half to even). -/
def pyRound2 (q : ℚ) : ℚ :=
  let y := q * 100
  let fl := ⌊y⌋
  let frac := y - (fl : ℚ)
  let n : ℤ :=
    if frac < 1/2 then fl
    else if 1/2 < frac then fl + 1
    else if fl % 2 = 0 then fl else fl + 1
  (n : ℚ) / 100

/-- `ScoringService.calculate_ats_score` (backend version,
`src/backend/services/scoring.py`): match percentage over the deduplicated
lowercased keyword set plus +5 structural bonuses, clamped to 100 and rounded
to 2 decimals; returns 0.0 immediately when `keywords` is empty. -/
def calculate_ats_score (rd : ResumeData) (keywords : List String) : ℚ :=
  if keywords.isEmpty then 0.0
  else
    let keyword_set := (keywords.map lowerStr).dedup
    let resume_text_lower := lowerStr (extract_resume_text rd)
    let matchCount := (keyword_set.filter fun k => containsSub resume_text_lower.data k.data).length
    let match_percentage := ((matchCount : ℚ) / (keyword_set.length : ℚ)) * 100
    let structure_bonus : ℚ :=
      (if truthyOptList rd.experience then 5 else 0) +
      (if truthyOptList rd.skills then 5 else 0) +
      (if truthyOptList rd.education then 5 else 0)
    pyRound2 (min (100.0 : ℚ) (match_percentage + structure_bonus))

/-! ## Legacy ATS scoring (`src/services/scoring_service.py`) -/

/-- `ScoringService._extract_resume_text` (legacy version): all personal
values, summary, experience, skills, education, projects (without
technologies). -/
def extract_resume_text_legacy (rd : ResumeData) : String :=
  joinParts (
    (match rd.personal with
     | some personal => personal.map Prod.snd
     | none => []) ++
    (match rd.summary with
     | some summary =>
       (match summary.headline with | some h => [h] | none => []) ++
       (match summary.bullets with | some bs => bs | none => [])
     | none => []) ++
    (match rd.experience with
     | some jobs =>
       jobs.flatMap fun job =>
         [job.title, job.company, job.description] ++
         job.achievements.flatMap fun a => a.text :: a.keywords
     | none => []) ++
    (match rd.skills with
     | some skills => skillsParts skills
     | none => []) ++
    (match rd.education with
     | some edus => edus.flatMap fun e => [e.degree, e.school, e.description]
     | none => []) ++
    (match rd.projects with
     | some projects => projects.flatMap fun p => [p.name, p.description] ++ p.keywords
     | none => []))

/-- `ScoringService.calculate_ats_score` (legacy version,
`src/services/scoring_service.py`): 40-point capped keyword score over the
first 20 keywords, +15 skills, up to +20 achievements, up to +10 contact,
+10 summary headline, +5 education; truncated and clamped to 100.  There is
no early return for an empty keyword list. -/
def calculate_ats_score_legacy (rd : ResumeData) (role_keywords : List String) : ℤ :=
  let resume_text := lowerStr (extract_resume_text_legacy rd)
  let matched_keywords :=
    ((role_keywords.take 20).filter fun k =>
      containsSub resume_text.data (lowerStr k).data).length
  let keyword_score : ℚ := min 40 (((matched_keywords : ℚ) / 20) * 40)
  let t1 := keyword_score
  let t2 := t1 + (if truthyOptList rd.skills then 15 else 0)
  let t3 := t2 +
    (match rd.experience with
     | some jobs =>
       let achievement_count := (jobs.map fun j => j.achievements.length).sum
       min 20 (((achievement_count : ℚ) / 10) * 20)
     | none => 0)
  let t4 := t3 +
    (match rd.personal with
     | some personal =>
       (if (alGet personal "name").isSome then (5 : ℚ) else 0) +
       (if (alGet personal "email").isSome then (5 : ℚ) else 0) +
       (if (alGet personal "phone").isSome then (2.5 : ℚ) else 0) +
       (if (alGet personal "location").isSome then (2.5 : ℚ) else 0)
     | none => 0)
  let t5 := t4 +
    (match rd.summary with
     | some summary => if truthyOptStr summary.headline then (10 : ℚ) else 0
     | none => 0)
  let t6 := t5 + (if truthyOptList rd.education then 5 else 0)
  min 100 (pyInt t6)

/-! ## Spec-side reference definitions (for refinement comparisons) -/

/-- The substring pass as the spec demands it (§4.3 "No double counting"):
role keywords already credited by the tag pass are excluded from the
partial-match pass.  This definition follows the spec's words, for comparison
with `score_achievement`, which is translated from the code. -/
def score_achievement_noDouble (rs : RelevanceScorer) (a : Achievement) : ℚ :=
  let achievement_text := lowerStr a.text
  let credited :=
    (a.keywords.filter fun kw => lowerStr kw ∈ rs.role_keywords.map lowerStr).map lowerStr
  let s1 := a.keywords.foldl
    (fun score kw =>
      if lowerStr kw ∈ rs.role_keywords.map lowerStr then
        score + ((alGet rs.keyword_weights (lowerStr kw)).getD 1.0)
      else score)
    0.0
  let s2 := rs.role_keywords.foldl
    (fun score role_kw =>
      if containsSub achievement_text.data (lowerStr role_kw).data ∧
          lowerStr role_kw ∉ credited then
        score + ((alGet rs.keyword_weights (lowerStr role_kw)).getD 0.5) * 0.7
      else score)
    s1
  if a.metrics.isSome then s2 + 1.0 else s2

/-- The requirement-context bonus as the claim words it: +0.5 if the keyword
appears within the 200-character window following ANY occurrence of any of
the seven phrases.  This definition follows the spec's words, for comparison
with `ctxBonus`, which is translated from the code (which only inspects the
first occurrence of each phrase). -/
def ctxBonusAnyOccurrence (jd : List Char) (kwLower : List Char) : ℚ :=
  if requirement_contexts.any (fun c =>
      (List.range (jd.length + 1)).any fun p =>
        c.data.isPrefixOf (jd.drop p) ∧
        containsSub (pySlice jd (p + c.length) (p + c.length + 200)) kwLower)
  then 0.5 else 0

/-- The keyword weight as the claim words it (frequency bonus and high-value
bonus as in the code, requirement-context bonus per `ctxBonusAnyOccurrence`). -/
def weightForSpec (jd : String) (keyword : String) : ℚ :=
  let kw_lower := lowerStr keyword
  let occurrences := pyCount jd.data kw_lower.data
  (1.0 : ℚ) +
  (if occurrences > 1 then min ((occurrences : ℚ) * 0.2) 1.0 else 0) +
  ctxBonusAnyOccurrence jd.data kw_lower.data +
  (if kw_lower ∈ HIGH_PRIORITY_TERMS then 0.3 else 0)

/-! ## Reference-sharing model of `customize_resume_data`

Python's `dict.copy()` is shallow: the scorer allocates a fresh top-level
mapping but the nested job dicts (and a pre-existing `keywords` dict) are
shared by reference.  The state below makes those references explicit: a heap
of top-level dicts, a heap of job objects, and a heap of keywords dicts. -/

/-- Values of a top-level resume mapping: the `experience` entry holds
references into the job heap, the `keywords` entry a reference into the
keywords-dict heap, and everything else is opaque. -/
inductive TopVal : Type where
  | vexp (jobRefs : List Nat) : TopVal
  | vkw (r : Nat) : TopVal
  | vstr (s : String) : TopVal
deriving DecidableEq, Repr

/-- The mutable heaps: top-level dicts, job objects, keywords dicts. -/
structure PyState where
  dicts : List (List (String × TopVal))
  jobs : List Job
  kwdicts : List (List (String × List String))
deriving DecidableEq, Repr

/-- `customize_resume_data` with reference semantics: shallow-copy the
top-level dict `d`, mutate the shared job objects in place (score, then sort
and force), and attach `keywords['role_specific']` — allocating a fresh
keywords dict only when the copy has no `keywords` key.  Returns the
reference to the fresh top-level dict and the new state.  (A present
`keywords` entry that is not a dict would raise in Python; the claims never
reach that case.) -/
def customizeSt (rs : RelevanceScorer) (d : Nat) (st : PyState) : Nat × PyState :=
  let entries := st.dicts.getD d []
  let dNew := st.dicts.length
  let dicts1 := st.dicts ++ [entries]
  let expRefs := match alGet entries "experience" with
    | some (.vexp refs) => refs
    | _ => []
  let jobs1 := expRefs.foldl (fun js r => js.set r (scoreJob rs (js.getD r {}))) st.jobs
  let jobs2 := expRefs.foldl (fun js r => js.set r (sortForceJob (js.getD r {}))) jobs1
  match alGet entries "keywords" with
  | some (.vkw kr) =>
    let kwdicts1 := st.kwdicts.set kr
      (alSet (st.kwdicts.getD kr []) "role_specific" (rs.role_keywords.take 20))
    (dNew, { dicts := dicts1, jobs := jobs2, kwdicts := kwdicts1 })
  | _ =>
    let kr := st.kwdicts.length
    let kwdicts1 := st.kwdicts ++ [alSet [] "role_specific" (rs.role_keywords.take 20)]
    let dicts2 := dicts1.set dNew (alSet entries "keywords" (.vkw kr))
    (dNew, { dicts := dicts2, jobs := jobs2, kwdicts := kwdicts1 })

/-! ## Concrete instances used by witnesses and counterexamples -/

/-- Scorer for the double-counting counterexample: one role keyword, empty
job description. -/
def rsPython : RelevanceScorer := mkRelevanceScorer ["python"] ""

/-- Achievement whose single tag also occurs verbatim in its text. -/
def achPython : Achievement := { text := "python", keywords := ["python"] }

/-- Job description in which "python" appears only in the 200-character
window after the second occurrence of "required", not the first. -/
def jdSecondRequired : String :=
  "required " ++ String.mk (List.replicate 195 'x') ++ " required python"

/-- A resume consisting of a single non-empty skills section. -/
def rdSkillsOnly : ResumeData := { skills := some [("languages", .flat ["python"])] }

/-- One experience entry with two achievements. -/
def jobsOneJob : List Job :=
  [{ title := "engineer",
     achievements := [
       { text := "Did nothing", keywords := [] },
       { text := "Built microservices architecture", keywords := ["python", "aws"],
         metrics := some { value := 1000000, mtype := "users" } }] }]

/-- A resume with one experience entry and two achievements. -/
def rdOneJob : ResumeData := { experience := some jobsOneJob }

/-- What `customize_resume_data` guarantees for each experience entry `j`
turned into `j2`: every achievement carries a score ≥ 0, the final list is
ordered by stored score descending, it arises from a stable descending sort
of the scored originals (permutation + per-score-class preservation) followed
by the force-top step, and the first achievement of a non-empty entry scores
at least 1 — exactly 1 when every computed score was below 1. -/
def customizedJobOk (rks : List String) (jd : String) (j j2 : Job) : Prop :=
  (∀ a ∈ j2.achievements, ∃ q, a.relevance_score = some q ∧ 0 ≤ q) ∧
  j2.achievements.Pairwise (fun a b => achKey b ≤ achKey a) ∧
  (insSortDesc achKey (scoreJob (mkRelevanceScorer rks jd) j).achievements).Perm
    (scoreJob (mkRelevanceScorer rks jd) j).achievements ∧
  (∀ v : ℚ,
    (insSortDesc achKey (scoreJob (mkRelevanceScorer rks jd) j).achievements).filter
      (fun a => achKey a = v) =
    (scoreJob (mkRelevanceScorer rks jd) j).achievements.filter fun a => achKey a = v) ∧
  j2.achievements =
    forceTop (insSortDesc achKey (scoreJob (mkRelevanceScorer rks jd) j).achievements) ∧
  (j.achievements ≠ [] → ∃ a2 t, j2.achievements = a2 :: t ∧ 1 ≤ achKey a2 ∧
    ((∀ b ∈ (scoreJob (mkRelevanceScorer rks jd) j).achievements, achKey b < 1) →
      achKey a2 = 1))

/-- A resume with no experience key. -/
def rdNoExperience : ResumeData := { summary := some { headline := some "engineer" } }

/-- Top-level entries of a resume dict without a `keywords` key whose
experience refers to job 0. -/
def entriesSimple : List (String × TopVal) :=
  [("experience", .vexp [0]), ("name", .vstr "dave")]

/-- A one-dict heap state over `entriesSimple`. -/
def stSimple : PyState :=
  { dicts := [entriesSimple],
    jobs := [{ title := "engineer",
               achievements := [{ text := "Did nothing", keywords := [] },
                                { text := "Used python daily", keywords := ["python"] }] }],
    kwdicts := [] }

/-! ## Stable sorting: permutation, sortedness, stability -/

theorem insertDesc_perm {α β : Type} [LinearOrder β] (key : α → β) (x : α)
    (l : List α) : (insertDesc key x l).Perm (x :: l) := by
  induction l with
  | nil => simp [insertDesc]
  | cons hd t ih =>
    by_cases hc : key hd ≤ key x
    · simp [insertDesc, hc]
    · rw [insertDesc, if_neg hc]
      exact (ih.cons hd).trans (List.Perm.swap x hd t)

theorem insSortDesc_perm {α β : Type} [LinearOrder β] (key : α → β)
    (l : List α) : (insSortDesc key l).Perm l := by
  induction l with
  | nil => simp [insSortDesc]
  | cons x xs ih =>
    exact (insertDesc_perm key x (insSortDesc key xs)).trans (ih.cons x)

theorem insertDesc_sorted {α β : Type} [LinearOrder β] (key : α → β) (x : α)
    (l : List α) (hl : l.Pairwise fun a b => key b ≤ key a) :
    (insertDesc key x l).Pairwise fun a b => key b ≤ key a := by
  induction l with
  | nil => simp [insertDesc]
  | cons hd t ih =>
    rw [List.pairwise_cons] at hl
    by_cases hc : key hd ≤ key x
    · rw [insertDesc, if_pos hc, List.pairwise_cons]
      refine ⟨?_, List.pairwise_cons.mpr hl⟩
      intro b hb
      rcases List.mem_cons.mp hb with rfl | hb
      · exact hc
      · exact le_trans (hl.1 b hb) hc
    · rw [insertDesc, if_neg hc, List.pairwise_cons]
      refine ⟨?_, ih hl.2⟩
      intro b hb
      have hmem := (insertDesc_perm key x t).mem_iff.mp hb
      rcases List.mem_cons.mp hmem with rfl | hb'
      · exact le_of_lt (lt_of_not_le hc)
      · exact hl.1 b hb'

theorem insSortDesc_sorted {α β : Type} [LinearOrder β] (key : α → β)
    (l : List α) : (insSortDesc key l).Pairwise fun a b => key b ≤ key a := by
  induction l with
  | nil => simp [insSortDesc]
  | cons x xs ih => exact insertDesc_sorted key x _ ih

theorem insertDesc_filter_eq {α β : Type} [LinearOrder β] (key : α → β) (x : α)
    (l : List α) (v : β) (hx : key x = v) :
    (insertDesc key x l).filter (fun a => key a = v) =
      x :: l.filter (fun a => key a = v) := by
  induction l with
  | nil => simp [insertDesc, List.filter_cons, hx]
  | cons hd t ih =>
    by_cases hc : key hd ≤ key x
    · rw [insertDesc, if_pos hc]
      simp [List.filter_cons, hx]
    · have hlt : key x < key hd := lt_of_not_le hc
      have hne : key hd ≠ v := ne_of_gt (hx ▸ hlt)
      rw [insertDesc, if_neg hc]
      simp [List.filter_cons, hne, ih]

theorem insertDesc_filter_ne {α β : Type} [LinearOrder β] (key : α → β) (x : α)
    (l : List α) (v : β) (hx : key x ≠ v) :
    (insertDesc key x l).filter (fun a => key a = v) =
      l.filter (fun a => key a = v) := by
  induction l with
  | nil => simp [insertDesc, List.filter_cons, hx]
  | cons hd t ih =>
    by_cases hc : key hd ≤ key x
    · rw [insertDesc, if_pos hc]
      simp [List.filter_cons, hx]
    · rw [insertDesc, if_neg hc]
      simp [List.filter_cons, ih]

theorem insSortDesc_filter {α β : Type} [LinearOrder β] (key : α → β)
    (l : List α) (v : β) :
    (insSortDesc key l).filter (fun a => key a = v) =
      l.filter (fun a => key a = v) := by
  induction l with
  | nil => simp [insSortDesc]
  | cons x xs ih =>
    by_cases hx : key x = v
    · rw [insSortDesc, insertDesc_filter_eq key x _ v hx, ih]
      simp [List.filter_cons, hx]
    · rw [insSortDesc, insertDesc_filter_ne key x _ v hx, ih]
      simp [List.filter_cons, hx]

theorem insSortDesc_of_sorted {α β : Type} [LinearOrder β] (key : α → β)
    (l : List α) (h : l.Pairwise fun a b => key b ≤ key a) :
    insSortDesc key l = l := by
  induction l with
  | nil => simp [insSortDesc]
  | cons x xs ih =>
    rw [List.pairwise_cons] at h
    rw [insSortDesc, ih h.2]
    cases xs with
    | nil => simp [insertDesc]
    | cons y t => simp [insertDesc, h.1 y (List.mem_cons_self y t)]

/-! ## Lowercase invariants -/

/-- A string with no ASCII uppercase letters (how "lowercase" manifests for
strings drawn from `str.lower()` output). -/
def noUpper (s : String) : Prop := ∀ c ∈ s.data, upperAZ c = false

theorem toNat_ofNat_valid (n : Nat) (h : n.isValidChar) : (Char.ofNat n).toNat = n := by
  rw [Char.ofNat, dif_pos h]
  rfl

theorem lowerChar_not_upper (c : Char) : upperAZ (lowerChar c) = false := by
  by_cases h : 65 ≤ c.toNat ∧ c.toNat ≤ 90
  · rw [lowerChar, if_pos h]
    have hval : (c.toNat + 32).isValidChar := Or.inl (by omega)
    have htoNat : (Char.ofNat (c.toNat + 32)).toNat = c.toNat + 32 :=
      toNat_ofNat_valid _ hval
    simp only [upperAZ, decide_eq_false_iff_not]
    intro hcon
    rw [htoNat] at hcon
    omega
  · rw [lowerChar, if_neg h]
    simp only [upperAZ, decide_eq_false_iff_not]
    exact h

theorem lowerChar_fix (c : Char) (h : upperAZ c = false) : lowerChar c = c := by
  rw [lowerChar, if_neg]
  simpa [upperAZ] using h

theorem lowerStr_noUpper (s : String) : noUpper (lowerStr s) := by
  intro c hc
  simp only [lowerStr, List.mem_map] at hc
  obtain ⟨c0, _, rfl⟩ := hc
  exact lowerChar_not_upper c0

theorem map_lowerChar_fix (l : List Char) (h : ∀ c ∈ l, upperAZ c = false) :
    l.map lowerChar = l := by
  induction l with
  | nil => rfl
  | cons c t ih =>
    simp only [List.map_cons]
    rw [lowerChar_fix c (h c (List.mem_cons_self c t)),
        ih fun x hx => h x (List.mem_cons_of_mem c hx)]

theorem lowerStr_fix (s : String) (h : noUpper s) : lowerStr s = s := by
  cases s with
  | mk data =>
    simp only [lowerStr]
    congr 1
    exact map_lowerChar_fix data h

theorem lowerStr_idem (s : String) : lowerStr (lowerStr s) = lowerStr s :=
  lowerStr_fix _ (lowerStr_noUpper s)

/-! ## The pieces emitted by `findall` are segments of the input -/

theorem seg_subset (cs : List Char) (a b : Nat) : ∀ c ∈ seg cs a b, c ∈ cs := by
  intro c hc
  exact List.mem_of_mem_drop (List.mem_of_mem_take hc)

theorem findallAux_subset (r : Rx) (cs : List Char) (fuel i : Nat) :
    ∀ piece ∈ findallAux r cs fuel i, ∀ c ∈ piece, c ∈ cs := by
  induction fuel generalizing i with
  | zero => simp [findallAux]
  | succ fuel ih =>
    intro piece hp c hc
    rw [findallAux] at hp
    by_cases hlen : i > cs.length
    · simp [hlen] at hp
    · rw [if_neg hlen] at hp
      rcases hm : matchR (cs.length + 64) r cs i with _ | ⟨⟨j, cap⟩, rest⟩
      · rw [hm] at hp
        exact ih (i + 1) piece hp c hc
      · rw [hm] at hp
        dsimp only at hp
        by_cases hji : j > i
        · rw [if_pos hji] at hp
          rcases List.mem_cons.mp hp with rfl | hp
          · cases cap with
            | some sp => exact seg_subset cs sp.1 sp.2 c hc
            | none => exact seg_subset cs i j c hc
          · exact ih j piece hp c hc
        · rw [if_neg hji] at hp
          rcases List.mem_cons.mp hp with rfl | hp
          · cases cap with
            | some sp => exact seg_subset cs sp.1 sp.2 c hc
            | none => exact seg_subset cs i j c hc
          · exact ih (i + 1) piece hp c hc

theorem findall_subset (r : Rx) (cs : List Char) :
    ∀ piece ∈ findall r cs, ∀ c ∈ piece, c ∈ cs :=
  findallAux_subset r cs (cs.length + 2) 0

/-! ## Invariants of the extractor's score map -/

/-- No ASCII uppercase letter in a character list. -/
def noUpperL (l : List Char) : Prop := ∀ c ∈ l, upperAZ c = false

/-- The score map has distinct keys, all free of uppercase letters. -/
def scoreMapInv (m : List (String × Nat)) : Prop :=
  (m.map Prod.fst).Nodup ∧ ∀ k ∈ m.map Prod.fst, noUpper k

theorem foldl_inv {γ δ : Type} (step : γ → δ → γ) (Inv : γ → Prop) (l : List δ)
    (m0 : γ) (h0 : Inv m0) (hstep : ∀ m, Inv m → ∀ x ∈ l, Inv (step m x)) :
    Inv (l.foldl step m0) := by
  induction l generalizing m0 with
  | nil => exact h0
  | cons x xs ih =>
    exact ih (step m0 x) (hstep m0 h0 x (List.mem_cons_self x xs))
      fun m hm y hy => hstep m hm y (List.mem_cons_of_mem x hy)

theorem bump_inv (m : List (String × Nat)) (k : String) (inc : Nat)
    (hm : scoreMapInv m) (hk : noUpper k) : scoreMapInv (bump m k inc) := by
  refine ⟨alSet_nodup_keys m k _ hm.1, fun k' hk' => ?_⟩
  rcases List.mem_cons.mp (alSet_keys_subset m k _ hk') with rfl | h
  · exact hk
  · exact hm.2 k' h

theorem noUpperL_of_lowered (jd : String) : noUpperL (lowerStr jd).data :=
  lowerStr_noUpper jd

theorem noUpper_of_piece (source piece : List Char) (hsrc : noUpperL source)
    (hsub : ∀ c ∈ piece, c ∈ source) : noUpper (⟨piece⟩ : String) :=
  fun c hc => hsrc c (hsub c hc)

theorem extractPriorityKeywords_inv (jd : String) (m0 : List (String × Nat))
    (hm : scoreMapInv m0) :
    scoreMapInv (extractPriorityKeywords (lowerStr jd).data m0) := by
  refine foldl_inv _ scoreMapInv _ m0 hm fun m hm1 ip _ => ?_
  refine foldl_inv _ scoreMapInv _ m hm1 fun m2 hm2 mt hmt => ?_
  exact bump_inv m2 _ _ hm2
    (noUpper_of_piece _ mt (noUpperL_of_lowered jd) (findall_subset _ _ mt hmt))

theorem extractTechnicalTerms_inv (original : List Char) (m0 : List (String × Nat))
    (hm : scoreMapInv m0) : scoreMapInv (extractTechnicalTerms original m0) := by
  refine foldl_inv _ scoreMapInv _ m0 hm fun m hm1 term _ => ?_
  by_cases h : lowerStr ⟨term⟩ ∈ nonTechnical
  · simpa [h] using hm1
  · simpa [h] using bump_inv m _ 1 hm1 (lowerStr_noUpper _)

theorem bumpTerms_inv (inc : Nat) (captured : List Char) (m0 : List (String × Nat))
    (hcap : noUpperL captured) (hm : scoreMapInv m0) :
    scoreMapInv (bumpTerms inc m0 captured) := by
  refine foldl_inv _ scoreMapInv _ m0 hm fun m hm1 term hterm => ?_
  by_cases h : term.length > 2
  · simpa [h] using bump_inv m _ inc hm1
      (noUpper_of_piece captured term hcap (findall_subset _ _ term hterm))
  · simpa [h] using hm1

theorem extractRequirementPhrases_inv (jd : String) (m0 : List (String × Nat))
    (hm : scoreMapInv m0) :
    scoreMapInv (extractRequirementPhrases (lowerStr jd).data m0) := by
  refine foldl_inv _ scoreMapInv _ m0 hm fun m hm1 pat _ => ?_
  refine foldl_inv _ scoreMapInv _ m hm1 fun m2 hm2 captured hcap => ?_
  exact bumpTerms_inv _ captured m2
    (fun c hc => noUpperL_of_lowered jd c (findall_subset _ _ captured hcap c hc)) hm2

theorem extractTechStack_inv (jd : String) (m0 : List (String × Nat))
    (hm : scoreMapInv m0) :
    scoreMapInv (extractTechStack (lowerStr jd).data m0) := by
  refine foldl_inv _ scoreMapInv _ m0 hm fun m hm1 pat _ => ?_
  refine foldl_inv _ scoreMapInv _ m hm1 fun m2 hm2 captured hcap => ?_
  exact bumpTerms_inv _ captured m2
    (fun c hc => noUpperL_of_lowered jd c (findall_subset _ _ captured hcap c hc)) hm2

theorem extractScores_inv (jd : String) : scoreMapInv (extractScores jd) := by
  rw [extractScores]
  exact extractTechStack_inv jd _
    (extractRequirementPhrases_inv jd _
      (extractTechnicalTerms_inv _ _
        (extractPriorityKeywords_inv jd [] ⟨List.nodup_nil, by simp⟩)))

/-! ## Properties of `filterKeywords` and `extract` -/

theorem filterKeywords_nodup (m : List (String × Nat)) (hm : scoreMapInv m) :
    (filterKeywords m).Nodup := by
  rw [filterKeywords]
  exact hm.1.sublist ((List.filter_sublist m).map Prod.fst)

theorem mem_filterKeywords (m : List (String × Nat)) (k : String)
    (hk : k ∈ filterKeywords m) :
    k ∈ m.map Prod.fst ∧ lowerStr k ∉ STOP_WORDS ∧ k.length > 2 := by
  rw [filterKeywords] at hk
  obtain ⟨p, hp, rfl⟩ := List.mem_map.mp hk
  have hmem := List.mem_of_mem_filter hp
  have hpred := List.of_mem_filter hp
  simp only [decide_eq_true_eq] at hpred
  exact ⟨List.mem_map_of_mem Prod.fst hmem, hpred.1, hpred.2.1⟩

theorem mem_extract_mem_filterKeywords (jd : String) (k : String)
    (hk : k ∈ extract jd) : k ∈ filterKeywords (extractScores jd) := by
  rw [extract] at hk
  have h1 : k ∈ insSortDesc (fun k => (alGet (extractScores jd) k).getD 0)
      (filterKeywords (extractScores jd)) := List.mem_of_mem_take hk
  exact (insSortDesc_perm _ _).mem_iff.mp h1

/-! ## Keyword weights: lookup characterization and lower bound -/

theorem ctxBonus_nonneg (jd kw : List Char) (ctxs : List String) :
    0 ≤ ctxBonus jd kw ctxs := by
  induction ctxs with
  | nil => simp [ctxBonus]
  | cons c rest ih =>
    rw [ctxBonus]
    by_cases h1 : containsSub jd c.data
    · rw [if_pos h1]
      by_cases h2 : containsSub
          (pySlice jd ((pyFind jd c.data).getD 0) ((pyFind jd c.data).getD 0 + 200)) kw
      · rw [if_pos h2]; norm_num
      · rw [if_neg h2]; exact ih
    · rw [if_neg h1]; exact ih

theorem weightFor_ge_one (jd keyword : String) : 1 ≤ weightFor jd keyword := by
  have hctx := ctxBonus_nonneg jd.data (lowerStr keyword).data requirement_contexts
  have hmin : 0 ≤ min ((pyCount jd.data (lowerStr keyword).data : ℚ) * 0.2) 1.0 :=
    le_min (by positivity) (by norm_num)
  rw [weightFor]
  by_cases h1 : pyCount jd.data (lowerStr keyword).data > 1 <;>
    by_cases h2 : lowerStr keyword ∈ HIGH_PRIORITY_TERMS <;>
      simp only [h1, h2, if_pos, if_neg, if_true, if_false, not_false_iff] <;>
        linarith

theorem weightFor_lower (jd keyword : String) :
    weightFor jd (lowerStr keyword) = weightFor jd keyword := by
  rw [weightFor, weightFor, lowerStr_idem]

theorem alGet_foldl_weights (rks : List String) (jd : String)
    (m0 : List (String × ℚ)) (k : String) :
    alGet (rks.foldl (fun m keyword => alSet m (lowerStr keyword) (weightFor jd keyword)) m0) k =
      if k ∈ rks.map lowerStr then some (weightFor jd k) else alGet m0 k := by
  induction rks generalizing m0 with
  | nil => simp
  | cons kw rks ih =>
    rw [List.foldl_cons, ih]
    by_cases hmem : k ∈ rks.map lowerStr
    · rw [if_pos hmem,
        if_pos (by simp only [List.map_cons, List.mem_cons]; exact Or.inr hmem)]
    · rw [if_neg hmem]
      by_cases heq : k = lowerStr kw
      · subst heq
        rw [alGet_alSet_self, weightFor_lower, if_pos (by simp)]
      · rw [alGet_alSet_ne _ _ _ _ fun he => heq he.symm,
          if_neg (by
            simp only [List.map_cons, List.mem_cons]
            rintro (h | h)
            · exact heq h
            · exact hmem h)]

theorem calcKeywordWeights_lookup (rks : List String) (jd : String) (k : String) :
    alGet (calcKeywordWeights rks jd) k =
      if k ∈ rks.map lowerStr then some (weightFor jd k) else none := by
  rw [calcKeywordWeights, alGet_foldl_weights]
  rfl

theorem scorer_weights_ge_one (rks : List String) (jd : String) (k : String) (w : ℚ)
    (h : alGet (mkRelevanceScorer rks jd).keyword_weights k = some w) : 1 ≤ w := by
  rw [mkRelevanceScorer] at h
  simp only at h
  rw [calcKeywordWeights_lookup] at h
  by_cases hmem : k ∈ rks.map lowerStr
  · rw [if_pos hmem] at h
    cases h
    exact weightFor_ge_one _ _
  · rw [if_neg hmem] at h
    cases h

/-! ## Conditional-sum folds in `score_achievement` -/

theorem foldl_condadd_ge_init {α : Type} (p : α → Prop) [DecidablePred p]
    (f : α → ℚ) (l : List α) (s0 : ℚ) (hf : ∀ x ∈ l, 0 ≤ f x) :
    s0 ≤ l.foldl (fun s x => if p x then s + f x else s) s0 := by
  induction l generalizing s0 with
  | nil => simp
  | cons y ys ih =>
    rw [List.foldl_cons]
    have hy : s0 ≤ if p y then s0 + f y else s0 := by
      by_cases hp : p y
      · rw [if_pos hp]
        linarith [hf y (List.mem_cons_self y ys)]
      · rw [if_neg hp]
    exact le_trans hy (ih _ fun x hx => hf x (List.mem_cons_of_mem y hx))

theorem foldl_condadd_ge_mem {α : Type} (p : α → Prop) [DecidablePred p]
    (f : α → ℚ) (l : List α) (s0 : ℚ) (x : α) (hx : x ∈ l) (hpx : p x)
    (hf : ∀ y ∈ l, 0 ≤ f y) :
    s0 + f x ≤ l.foldl (fun s y => if p y then s + f y else s) s0 := by
  induction l generalizing s0 with
  | nil => cases hx
  | cons y ys ih =>
    rw [List.foldl_cons]
    rcases List.mem_cons.mp hx with rfl | hx'
    · rw [if_pos hpx]
      exact foldl_condadd_ge_init p f ys (s0 + f x)
        fun z hz => hf z (List.mem_cons_of_mem x hz)
    · have hy : s0 ≤ if p y then s0 + f y else s0 := by
        by_cases hp : p y
        · rw [if_pos hp]
          linarith [hf y (List.mem_cons_self y ys)]
        · rw [if_neg hp]
      have hrec := ih (if p y then s0 + f y else s0) hx'
        fun z hz => hf z (List.mem_cons_of_mem y hz)
      linarith

/-- Every term added by the tag pass is non-negative for a constructed scorer. -/
theorem tag_term_nonneg (rks : List String) (jd : String) (kw : String) :
    0 ≤ (alGet (mkRelevanceScorer rks jd).keyword_weights (lowerStr kw)).getD 1.0 := by
  cases h : alGet (mkRelevanceScorer rks jd).keyword_weights (lowerStr kw) with
  | none => norm_num
  | some w =>
    have := scorer_weights_ge_one rks jd (lowerStr kw) w h
    simp only [Option.getD_some]
    linarith

/-- Every term added by the substring pass is non-negative for a constructed
scorer. -/
theorem text_term_nonneg (rks : List String) (jd : String) (kw : String) :
    0 ≤ (alGet (mkRelevanceScorer rks jd).keyword_weights (lowerStr kw)).getD 0.5 * 0.7 := by
  cases h : alGet (mkRelevanceScorer rks jd).keyword_weights (lowerStr kw) with
  | none => norm_num
  | some w =>
    have := scorer_weights_ge_one rks jd (lowerStr kw) w h
    simp only [Option.getD_some]
    nlinarith

theorem score_achievement_nonneg (rks : List String) (jd : String) (a : Achievement) :
    0 ≤ score_achievement (mkRelevanceScorer rks jd) a := by
  rw [score_achievement]
  have h1 := foldl_condadd_ge_init
    (fun kw => lowerStr kw ∈ (mkRelevanceScorer rks jd).role_keywords.map lowerStr)
    (fun kw => (alGet (mkRelevanceScorer rks jd).keyword_weights (lowerStr kw)).getD 1.0)
    a.keywords 0.0 (fun kw _ => tag_term_nonneg rks jd kw)
  have h2 := foldl_condadd_ge_init
    (fun role_kw => containsSub (lowerStr a.text).data (lowerStr role_kw).data = true)
    (fun role_kw => (alGet (mkRelevanceScorer rks jd).keyword_weights (lowerStr role_kw)).getD 0.5 * 0.7)
    (mkRelevanceScorer rks jd).role_keywords
    (a.keywords.foldl
      (fun score kw =>
        if lowerStr kw ∈ (mkRelevanceScorer rks jd).role_keywords.map lowerStr then
          score + ((alGet (mkRelevanceScorer rks jd).keyword_weights (lowerStr kw)).getD 1.0)
        else score) 0.0)
    (fun kw _ => text_term_nonneg rks jd kw)
  by_cases hm : a.metrics.isSome
  · rw [if_pos hm]
    exact le_trans (by norm_num : (0 : ℚ) ≤ 0.0)
      (le_trans (le_trans h1 h2) (le_add_of_nonneg_right (by norm_num)))
  · rw [if_neg hm]
    exact le_trans (by norm_num : (0 : ℚ) ≤ 0.0) (le_trans h1 h2)

/-! ## Scoring ignores the stored score; customization is idempotent -/

theorem score_setScore (rs : RelevanceScorer) (a : Achievement) (q : ℚ) :
    score_achievement rs (setScore a q) = score_achievement rs a := rfl

theorem achKey_setScore (a : Achievement) (q : ℚ) : achKey (setScore a q) = q := rfl

theorem setScore_setScore (a : Achievement) (q1 q2 : ℚ) :
    setScore (setScore a q1) q2 = setScore a q2 := rfl

theorem map_id_of_fix {α : Type} (g : α → α) (L : List α) (h : ∀ x ∈ L, g x = x) :
    L.map g = L := by
  induction L with
  | nil => rfl
  | cons x t ih =>
    simp only [List.map_cons]
    rw [h x (List.mem_cons_self x t), ih fun y hy => h y (List.mem_cons_of_mem x hy)]

theorem map_score_forceTop (rs : RelevanceScorer) (l : List Achievement) :
    (forceTop l).map (fun a => setScore a (score_achievement rs a)) =
      l.map (fun a => setScore a (score_achievement rs a)) := by
  cases l with
  | nil => rfl
  | cons a rest =>
    rw [forceTop]
    by_cases h : achKey a < 1
    · rw [if_pos h]
      simp only [List.map_cons]
      rw [score_setScore, setScore_setScore]
    · rw [if_neg h]

/-- The per-job list transformation performed by `customize_resume_data`. -/
theorem procList_idem (rs : RelevanceScorer) (l : List Achievement) :
    forceTop (insSortDesc achKey
      ((forceTop (insSortDesc achKey
        (l.map fun a => setScore a (score_achievement rs a)))).map
          fun a => setScore a (score_achievement rs a))) =
    forceTop (insSortDesc achKey (l.map fun a => setScore a (score_achievement rs a))) := by
  set σ : Achievement → Achievement := fun a => setScore a (score_achievement rs a) with hσ
  set M := insSortDesc achKey (l.map σ) with hM
  have hfix : ∀ x ∈ M, σ x = x := by
    intro x hx
    have hx2 : x ∈ l.map σ := (insSortDesc_perm achKey (l.map σ)).mem_iff.mp hx
    obtain ⟨a, _, rfl⟩ := List.mem_map.mp hx2
    show setScore (setScore a _) _ = setScore a _
    rw [score_setScore, setScore_setScore]
  rw [map_score_forceTop]
  rw [show (M.map σ) = M from map_id_of_fix σ M hfix]
  rw [insSortDesc_of_sorted achKey M (insSortDesc_sorted achKey (l.map σ))]

theorem processJob_idem (rs : RelevanceScorer) (j : Job) :
    processJob rs (processJob rs j) = processJob rs j := by
  cases j with
  | mk title company description achievements =>
    simp only [processJob, scoreJob, sortForceJob]
    congr 1
    exact procList_idem rs achievements

/-! ## Properties of the sorted-and-forced achievement list (for C4) -/

theorem forceTop_sorted (l : List Achievement)
    (hl : l.Pairwise fun a b => achKey b ≤ achKey a) :
    (forceTop l).Pairwise fun a b => achKey b ≤ achKey a := by
  cases l with
  | nil => simp [forceTop]
  | cons a rest =>
    rw [forceTop]
    by_cases h : achKey a < 1
    · rw [if_pos h]
      rw [List.pairwise_cons] at hl ⊢
      refine ⟨fun b hb => ?_, hl.2⟩
      have hba := hl.1 b hb
      rw [achKey_setScore]
      linarith
    · rwa [if_neg h]

theorem mem_forceTop (l : List Achievement) (x : Achievement) (hx : x ∈ forceTop l) :
    x ∈ l ∨ ∃ a rest, l = a :: rest ∧ x = setScore a 1.0 := by
  cases l with
  | nil => simp [forceTop] at hx
  | cons a rest =>
    rw [forceTop] at hx
    by_cases h : achKey a < 1
    · rw [if_pos h] at hx
      rcases List.mem_cons.mp hx with rfl | hx'
      · exact Or.inr ⟨a, rest, rfl, rfl⟩
      · exact Or.inl (List.mem_cons_of_mem a hx')
    · rw [if_neg h] at hx
      exact Or.inl hx

/-! ## Heap-model lemmas (for the aliasing claim) -/

theorem foldl_set_length (refs : List Nat) (f : Job → Job) (js : List Job) :
    (refs.foldl (fun js r => js.set r (f (js.getD r {}))) js).length = js.length := by
  induction refs generalizing js with
  | nil => rfl
  | cons x rest ih => rw [List.foldl_cons, ih, List.length_set]

theorem foldl_set_get_notmem (refs : List Nat) (f : Job → Job) (js : List Job)
    (r : Nat) (hr : r ∉ refs) :
    (refs.foldl (fun js r => js.set r (f (js.getD r {}))) js)[r]? = js[r]? := by
  induction refs generalizing js with
  | nil => rfl
  | cons x rest ih =>
    rw [List.foldl_cons,
      ih _ fun h => hr (List.mem_cons_of_mem x h),
      List.getElem?_set_ne fun he => hr (by rw [← he]; exact List.mem_cons_self x rest)]

theorem foldl_set_get_mem (refs : List Nat) (f : Job → Job) (js : List Job)
    (hnd : refs.Nodup) (r : Nat) (hr : r ∈ refs) (hlen : r < js.length) :
    (refs.foldl (fun js r => js.set r (f (js.getD r {}))) js)[r]? =
      some (f (js.getD r {})) := by
  induction refs generalizing js with
  | nil => cases hr
  | cons x rest ih =>
    rw [List.nodup_cons] at hnd
    rw [List.foldl_cons]
    rcases List.mem_cons.mp hr with rfl | hr'
    · rw [foldl_set_get_notmem rest f _ r hnd.1]
      exact List.getElem?_set_self hlen
    · have hxr : x ≠ r := fun he => hnd.1 (he ▸ hr')
      have hlen' : r < (js.set x (f (js.getD x {}))).length := by
        rw [List.length_set]; exact hlen
      rw [ih _ hnd.2 hr' hlen']
      congr 2
      simp [List.getD_eq_getElem?_getD, List.getElem?_set_ne hxr]

/-! ## Claim theorems -/

/-- C1, counterexample: the claim says a role keyword credited by the
tag-match pass is not additionally credited by the substring pass.  In the
code there is no such tracking: with role keyword "python" (weight 1.3), an
achievement tagged "python" whose text also contains "python" scores
1.3 + 0.7 × 1.3 = 2.21, while the spec's no-double-counting computation
gives 1.3. -/
theorem c1_counterexample :
    score_achievement rsPython achPython = 2.21 ∧
    score_achievement_noDouble rsPython achPython = 1.3 ∧
    ((2.21 : ℚ) ≠ 1.3) := by
  have hw : weightFor (lowerStr "") "python" = 1.3 := by
    simp +decide [weightFor, ctxBonus, requirement_contexts]
    norm_num
  refine ⟨?_, ?_, by norm_num⟩
  · simp +decide [score_achievement, rsPython, mkRelevanceScorer, calcKeywordWeights,
      achPython, alGet, alSet, List.find?, hw]
    norm_num
  · simp +decide [score_achievement_noDouble, rsPython, mkRelevanceScorer,
      calcKeywordWeights, achPython, alGet, alSet, List.find?, hw]
    norm_num

/-- C1, amended: `score_achievement` does not track keywords already credited
by the tag pass; a role keyword that matches one of the achievement's tags
AND occurs in the achievement's lowercased text is credited twice — once at
its full weight `w` (≥ 1) and once at `0.7 × w` — so the score is at least
`w + 0.7 × w`. -/
theorem c1_keyword_double_credit (rks : List String) (jd : String) (a : Achievement)
    (kw : String) (htag : kw ∈ a.keywords)
    (hrole : lowerStr kw ∈ rks.map lowerStr)
    (htext : containsSub (lowerStr a.text).data (lowerStr kw).data = true) :
    ∃ w, alGet (mkRelevanceScorer rks jd).keyword_weights (lowerStr kw) = some w ∧
      1 ≤ w ∧ w + 0.7 * w ≤ score_achievement (mkRelevanceScorer rks jd) a := by
  have hlook : alGet (mkRelevanceScorer rks jd).keyword_weights (lowerStr kw) =
      some (weightFor (lowerStr jd) (lowerStr kw)) := by
    show alGet (calcKeywordWeights rks (lowerStr jd)) (lowerStr kw) = _
    rw [calcKeywordWeights_lookup, if_pos hrole]
  refine ⟨weightFor (lowerStr jd) (lowerStr kw), hlook, weightFor_ge_one _ _, ?_⟩
  rw [score_achievement]
  have h1 := foldl_condadd_ge_mem
    (fun kw2 => lowerStr kw2 ∈ (mkRelevanceScorer rks jd).role_keywords.map lowerStr)
    (fun kw2 => (alGet (mkRelevanceScorer rks jd).keyword_weights (lowerStr kw2)).getD 1.0)
    a.keywords 0.0 kw htag hrole (fun y _ => tag_term_nonneg rks jd y)
  dsimp only at h1
  rw [hlook] at h1
  simp only [Option.getD_some] at h1
  obtain ⟨rk, hrkmem, hrkeq⟩ := List.mem_map.mp hrole
  have h2 := foldl_condadd_ge_mem
    (fun rk2 => containsSub (lowerStr a.text).data (lowerStr rk2).data = true)
    (fun rk2 => (alGet (mkRelevanceScorer rks jd).keyword_weights (lowerStr rk2)).getD 0.5 * 0.7)
    (mkRelevanceScorer rks jd).role_keywords
    (a.keywords.foldl
      (fun score kw2 =>
        if lowerStr kw2 ∈ (mkRelevanceScorer rks jd).role_keywords.map lowerStr then
          score + ((alGet (mkRelevanceScorer rks jd).keyword_weights (lowerStr kw2)).getD 1.0)
        else score) 0.0)
    rk hrkmem
    (by
      show containsSub (lowerStr a.text).data (lowerStr rk).data = true
      rw [hrkeq]
      exact htext)
    (fun y _ => text_term_nonneg rks jd y)
  dsimp only at h2
  rw [hrkeq, hlook] at h2
  simp only [Option.getD_some] at h2
  by_cases hm : a.metrics.isSome
  · rw [if_pos hm]
    linarith
  · rw [if_neg hm]
    linarith

/-- C1, witness: the amended theorem applied at the concrete scorer and
achievement of the counterexample. -/
theorem c1_keyword_double_credit_witness :
    ("python" ∈ achPython.keywords ∧
     lowerStr "python" ∈ (["python"].map lowerStr) ∧
     containsSub (lowerStr achPython.text).data (lowerStr "python").data = true) ∧
    ∃ w, alGet (mkRelevanceScorer ["python"] "").keyword_weights (lowerStr "python") = some w ∧
      1 ≤ w ∧ w + 0.7 * w ≤ score_achievement (mkRelevanceScorer ["python"] "") achPython :=
  ⟨⟨by decide, by decide, by decide⟩,
   c1_keyword_double_credit ["python"] "" achPython "python"
     (by decide) (by decide) (by decide)⟩

/-- C2, counterexample: the claim covers both `calculate_ats_score`
implementations, but the legacy one (`src/services/scoring_service.py`)
awards structural points with an empty keyword list: a resume with only a
non-empty skills section scores 15, not 0. -/
theorem c2_counterexample :
    calculate_ats_score_legacy rdSkillsOnly [] = 15 ∧ ((15 : ℤ) ≠ 0) := by
  refine ⟨?_, by norm_num⟩
  simp +decide [calculate_ats_score_legacy, rdSkillsOnly, extract_resume_text_legacy,
    skillsParts, joinParts, truthyOptList, alGet, pyInt]

/-- C2, amended: the backend `ScoringService.calculate_ats_score`
(`src/backend/services/scoring.py`) returns exactly 0.0 for every resume when
the keyword list is empty; the legacy `services/scoring_service.py` version
instead still awards its structural components (e.g. 15 for a non-empty
skills section). -/
theorem c2_backend_empty_keywords_zero (rd : ResumeData) :
    calculate_ats_score rd [] = 0 := by
  rw [calculate_ats_score, if_pos (by decide)]
  norm_num

set_option maxRecDepth 200000 in
/-- C3, counterexample: with "python" only inside the 200-character window of
the SECOND occurrence of "required", the code (which windows only the first
occurrence of each phrase) assigns weight 1.3, while the claim's
any-occurrence reading gives 1.8. -/
theorem c3_counterexample :
    alGet (mkRelevanceScorer ["python"] jdSecondRequired).keyword_weights "python" = some 1.3 ∧
    weightForSpec (lowerStr jdSecondRequired) "python" = 1.8 ∧
    ((1.3 : ℚ) ≠ 1.8) := by
  have hocc : pyCount (lowerStr jdSecondRequired).data (lowerStr "python").data = 1 := by
    decide
  refine ⟨?_, ?_, by norm_num⟩
  · have hctx : ctxBonus (lowerStr jdSecondRequired).data (lowerStr "python").data
        requirement_contexts = 0 := by
      simp +decide [ctxBonus, requirement_contexts]
    have hw : weightFor (lowerStr jdSecondRequired) "python" = 1.3 := by
      rw [weightFor]
      rw [show lowerStr "python" = "python" from by decide] at *
      rw [hocc] at *
      simp +decide [hctx]
      norm_num
    simp +decide [mkRelevanceScorer, calcKeywordWeights, alGet, alSet, List.find?, hw]
  · have hany : (requirement_contexts.any fun c =>
        (List.range ((lowerStr jdSecondRequired).data.length + 1)).any fun p =>
          c.data.isPrefixOf ((lowerStr jdSecondRequired).data.drop p) ∧
          containsSub
            (pySlice (lowerStr jdSecondRequired).data (p + c.length) (p + c.length + 200))
            "python".data) = true := by decide
    rw [weightForSpec, ctxBonusAnyOccurrence]
    rw [show lowerStr "python" = "python" from by decide] at *
    rw [hocc]
    rw [if_neg (by norm_num : ¬(1 > 1))]
    rw [if_pos hany]
    rw [if_pos (by decide : "python" ∈ HIGH_PRIORITY_TERMS)]
    norm_num

/-- C3, amended: `_calculate_keyword_weights` assigns every role keyword the
weight 1.0, plus `min(occurrences × 0.2, 1.0)` when the keyword occurs more
than once in the lowercased job description, plus 0.5 at most once when —
walking the seven requirement phrases in their fixed order — some phrase
occurs in the job description and the keyword's lowercase text appears in the
200-character window starting at that phrase's FIRST occurrence (the window
of later occurrences is never inspected), plus 0.3 for high-value terms; so
every weight is ≥ 1.0. -/
theorem c3_keyword_weight_formula (rks : List String) (jd : String) (kw : String)
    (hkw : kw ∈ rks) :
    ∃ w, alGet (mkRelevanceScorer rks jd).keyword_weights (lowerStr kw) = some w ∧
      w = 1.0 +
        (if pyCount (lowerStr jd).data (lowerStr kw).data > 1 then
          min ((pyCount (lowerStr jd).data (lowerStr kw).data : ℚ) * 0.2) 1.0 else 0) +
        ctxBonus (lowerStr jd).data (lowerStr kw).data requirement_contexts +
        (if lowerStr kw ∈ HIGH_PRIORITY_TERMS then 0.3 else 0) ∧
      1 ≤ w := by
  have hmem : lowerStr kw ∈ rks.map lowerStr := List.mem_map_of_mem lowerStr hkw
  have hlook : alGet (mkRelevanceScorer rks jd).keyword_weights (lowerStr kw) =
      some (weightFor (lowerStr jd) (lowerStr kw)) := by
    show alGet (calcKeywordWeights rks (lowerStr jd)) (lowerStr kw) = _
    rw [calcKeywordWeights_lookup, if_pos hmem]
  refine ⟨weightFor (lowerStr jd) (lowerStr kw), hlook, ?_, weightFor_ge_one _ _⟩
  rw [weightFor, lowerStr_idem]
  by_cases h1 : pyCount (lowerStr jd).data (lowerStr kw).data > 1 <;>
    by_cases h2 : lowerStr kw ∈ HIGH_PRIORITY_TERMS <;>
      simp only [h1, h2, if_true, if_false, if_pos, if_neg, not_false_iff] <;> ring

/-- C3, witness: the amended weight formula at a concrete scorer. -/
theorem c3_keyword_weight_formula_witness :
    ("python" ∈ ["python"]) ∧
    ∃ w, alGet (mkRelevanceScorer ["python"] "").keyword_weights (lowerStr "python") = some w ∧
      w = 1.0 +
        (if pyCount (lowerStr "").data (lowerStr "python").data > 1 then
          min ((pyCount (lowerStr "").data (lowerStr "python").data : ℚ) * 0.2) 1.0 else 0) +
        ctxBonus (lowerStr "").data (lowerStr "python").data requirement_contexts +
        (if lowerStr "python" ∈ HIGH_PRIORITY_TERMS then 0.3 else 0) ∧
      1 ≤ w :=
  ⟨by decide, c3_keyword_weight_formula ["python"] "" "python" (by decide)⟩

/-- Each experience entry satisfies `customizedJobOk` after processing. -/
theorem processJob_ok (rks : List String) (jd : String) (j : Job) :
    customizedJobOk rks jd j (processJob (mkRelevanceScorer rks jd) j) := by
  refine ⟨?_, ?_, insSortDesc_perm achKey _, fun v => insSortDesc_filter achKey _ v, rfl, ?_⟩
  · intro x hx
    rcases mem_forceTop _ x hx with hmem | ⟨a, rest, _, rfl⟩
    · have hsc : x ∈ (scoreJob (mkRelevanceScorer rks jd) j).achievements :=
        (insSortDesc_perm achKey _).mem_iff.mp hmem
      obtain ⟨a0, _, rfl⟩ := List.mem_map.mp hsc
      exact ⟨score_achievement (mkRelevanceScorer rks jd) a0, rfl,
        score_achievement_nonneg rks jd a0⟩
    · exact ⟨1.0, rfl, by norm_num⟩
  · exact forceTop_sorted _ (insSortDesc_sorted achKey _)
  · intro hne
    have hscne : (scoreJob (mkRelevanceScorer rks jd) j).achievements ≠ [] := by
      show j.achievements.map _ ≠ []
      simpa using hne
    have hMne : insSortDesc achKey (scoreJob (mkRelevanceScorer rks jd) j).achievements ≠ [] := by
      intro h0
      apply hscne
      have hp := insSortDesc_perm achKey (scoreJob (mkRelevanceScorer rks jd) j).achievements
      rw [h0] at hp
      exact hp.symm.eq_nil
    obtain ⟨m0, mt, hM⟩ := List.exists_cons_of_ne_nil hMne
    show ∃ a2 t, forceTop (insSortDesc achKey _) = a2 :: t ∧ _
    rw [hM, forceTop]
    by_cases hlt : achKey m0 < 1
    · rw [if_pos hlt]
      exact ⟨setScore m0 1.0, mt, rfl, by rw [achKey_setScore]; norm_num,
        fun _ => by rw [achKey_setScore]; norm_num⟩
    · rw [if_neg hlt]
      refine ⟨m0, mt, rfl, le_of_not_lt hlt, fun hall => ?_⟩
      have hm0 : m0 ∈ (scoreJob (mkRelevanceScorer rks jd) j).achievements :=
        (insSortDesc_perm achKey _).mem_iff.mp (hM ▸ List.mem_cons_self m0 mt)
      exact absurd (hall m0 hm0) (not_lt_of_le (le_of_not_lt hlt))

/-- C4: for every resume with at least one experience entry containing at
least one achievement, after `customize_resume_data` every achievement in
every entry carries a numeric relevance score ≥ 0, each entry's achievements
are ordered by stored score descending and arise as the stable descending
sort of the scored originals (permutation + per-score-class order
preservation) followed by the force-top step, and the first achievement of
every non-empty entry scores ≥ 1 (exactly 1 when all computed scores were
below 1). -/
theorem c4_customize_scores_and_sorts (rks : List String) (jd : String)
    (rd : ResumeData) (jobs : List Job) (hexp : rd.experience = some jobs)
    (_hne : ∃ j ∈ jobs, j.achievements ≠ []) :
    ∃ jobs2,
      (customize_resume_data (mkRelevanceScorer rks jd) rd).experience = some jobs2 ∧
      List.Forall₂ (customizedJobOk rks jd) jobs jobs2 := by
  refine ⟨jobs.map (processJob (mkRelevanceScorer rks jd)), ?_, ?_⟩
  · show rd.experience.map (List.map (processJob (mkRelevanceScorer rks jd))) = _
    rw [hexp]
    rfl
  · rw [List.forall₂_map_right_iff]
    exact List.forall₂_same.mpr fun j _ => processJob_ok rks jd j

/-- C4, witness: the customization guarantees at a concrete one-job resume. -/
theorem c4_customize_scores_and_sorts_witness :
    (rdOneJob.experience = some jobsOneJob ∧ ∃ j ∈ jobsOneJob, j.achievements ≠ []) ∧
    ∃ jobs2,
      (customize_resume_data (mkRelevanceScorer ["python"] "") rdOneJob).experience =
        some jobs2 ∧
      List.Forall₂ (customizedJobOk ["python"] "") jobsOneJob jobs2 :=
  ⟨⟨rfl, by decide⟩,
   c4_customize_scores_and_sorts ["python"] "" rdOneJob jobsOneJob rfl (by decide)⟩

/-- C5: for every job description the extractor returns at most 60 keywords,
without duplicates, all lowercase, none in the stop-word set, none of length
≤ 2; and the empty job description yields the empty list. -/
theorem c5_extract_wellformed :
    (∀ jd : String, (extract jd).length ≤ 60 ∧ (extract jd).Nodup ∧
      ∀ k ∈ extract jd, lowerStr k = k ∧ k ∉ STOP_WORDS ∧ 2 < k.length) ∧
    extract "" = [] := by
  constructor
  · intro jd
    have hinv := extractScores_inv jd
    refine ⟨?_, ?_, ?_⟩
    · rw [extract]
      rw [List.length_take]
      exact min_le_left _ _
    · rw [extract]
      refine List.Nodup.sublist (List.take_sublist _ _) ?_
      refine ((insSortDesc_perm _ _).nodup_iff).mpr ?_
      exact filterKeywords_nodup _ hinv
    · intro k hk
      have hfk := mem_extract_mem_filterKeywords jd k hk
      have hmk := mem_filterKeywords _ k hfk
      have hfix := lowerStr_fix k (hinv.2 k hmk.1)
      refine ⟨hfix, ?_, hmk.2.2⟩
      rw [← hfix]
      exact hmk.2.1
  · decide

/-- C6: the extractor's output is ordered by accumulated score descending,
and keywords with equal scores appear in score-map insertion order: the
output's restriction to any score class is a prefix of the filtered list's
restriction to that class. -/
theorem c6_extract_stable_ranking (jd : String) :
    (extract jd).Pairwise (fun a b =>
      (alGet (extractScores jd) b).getD 0 ≤ (alGet (extractScores jd) a).getD 0) ∧
    ∀ v : Nat, ∃ t,
      (extract jd).filter (fun k => (alGet (extractScores jd) k).getD 0 = v) ++ t =
      (filterKeywords (extractScores jd)).filter
        (fun k => (alGet (extractScores jd) k).getD 0 = v) := by
  constructor
  · rw [extract]
    exact List.Pairwise.sublist (List.take_sublist _ _) (insSortDesc_sorted _ _)
  · intro v
    refine ⟨((insSortDesc (fun k => (alGet (extractScores jd) k).getD 0)
        (filterKeywords (extractScores jd))).drop MAX_KEYWORDS).filter
          (fun k => (alGet (extractScores jd) k).getD 0 = v), ?_⟩
    rw [extract]
    rw [← List.filter_append, List.take_append_drop]
    exact insSortDesc_filter _ _ v

/-- C7: customizing through `customize_for_role` with keywords extracted from
the same job description stores exactly the first 20 entries of the
extractor's ranked list under `keywords.role_specific`. -/
theorem c7_role_specific_roundtrip (rd : ResumeData) (jd : String) :
    ∃ m, (customize_for_role rd jd none).keywords = some m ∧
      alGet m "role_specific" = some ((extract jd).take 20) :=
  ⟨alSet (rd.keywords.getD []) "role_specific" ((extract jd).take 20), rfl,
    alGet_alSet_self _ _ _⟩

/-- Every achievement of a processed job carries a stored relevance score. -/
theorem processJob_scores_present (rs : RelevanceScorer) (j : Job) :
    ∀ a ∈ (processJob rs j).achievements, a.relevance_score.isSome := by
  intro x hx
  rcases mem_forceTop _ x hx with hmem | ⟨a, rest, _, rfl⟩
  · have hsc : x ∈ (scoreJob rs j).achievements :=
      (insSortDesc_perm achKey _).mem_iff.mp hmem
    obtain ⟨a0, _, rfl⟩ := List.mem_map.mp hsc
    rfl
  · rfl

/-- C8: `customize_resume_data` under reference semantics.  The scorer
allocates a fresh top-level mapping (the caller's dict keeps its exact entry
list — in particular no `keywords` key is added to it when absent, only to
the copy), but the job objects referenced from the caller's `experience`
entry are mutated in place: after the call the caller's references
dereference to the scored, reordered achievements. -/
theorem c8_shallow_copy_aliasing (rs : RelevanceScorer) (st : PyState) (d : Nat)
    (entries : List (String × TopVal)) (refs : List Nat)
    (hd : st.dicts[d]? = some entries)
    (hkw : alGet entries "keywords" = none)
    (hexp : alGet entries "experience" = some (.vexp refs))
    (hnd : refs.Nodup)
    (hbound : ∀ r ∈ refs, r < st.jobs.length) :
    (customizeSt rs d st).1 ≠ d ∧
    (customizeSt rs d st).2.dicts[d]? = some entries ∧
    (customizeSt rs d st).2.dicts[(customizeSt rs d st).1]? =
      some (alSet entries "keywords" (.vkw st.kwdicts.length)) ∧
    (customizeSt rs d st).2.kwdicts[st.kwdicts.length]? =
      some (alSet [] "role_specific" (rs.role_keywords.take 20)) ∧
    ∀ r ∈ refs, ∃ j0, st.jobs[r]? = some j0 ∧
      (customizeSt rs d st).2.jobs[r]? = some (processJob rs j0) ∧
      ∀ a ∈ (processJob rs j0).achievements, a.relevance_score.isSome := by
  have hdlen : d < st.dicts.length := by
    by_contra h
    rw [List.getElem?_eq_none (le_of_not_lt h)] at hd
    cases hd
  have hent : st.dicts.getD d [] = entries := by
    rw [List.getD_eq_getElem?_getD, hd]
    rfl
  have hne : st.dicts.length ≠ d := fun he => absurd (he ▸ hdlen) (lt_irrefl d)
  simp only [customizeSt, hent, hexp, hkw]
  refine ⟨fun he => hne he, ?_, ?_, ?_, ?_⟩
  · rw [List.getElem?_set_ne hne, List.getElem?_append_left hdlen]
    exact hd
  · rw [List.getElem?_set_self]
    rw [List.length_append]
    simp
  · exact List.getElem?_concat_length _ _
  · intro r hr
    have hsome : ∃ j0, st.jobs[r]? = some j0 := by
      rw [List.getElem?_eq_getElem (hbound r hr)]
      exact ⟨_, rfl⟩
    obtain ⟨j0, hj0⟩ := hsome
    refine ⟨j0, hj0, ?_, processJob_scores_present rs _⟩
    have hget : st.jobs.getD r {} = j0 := by
      rw [List.getD_eq_getElem?_getD, hj0]
      rfl
    have hlen1 : r < (refs.foldl
        (fun js r2 => js.set r2 (scoreJob rs (js.getD r2 {}))) st.jobs).length := by
      rw [foldl_set_length]
      exact hbound r hr
    have h1 := foldl_set_get_mem refs (scoreJob rs) st.jobs hnd r hr (hbound r hr)
    have h2 := foldl_set_get_mem refs sortForceJob _ hnd r hr hlen1
    rw [h2]
    have hmid : (refs.foldl
        (fun js r2 => js.set r2 (scoreJob rs (js.getD r2 {}))) st.jobs).getD r {} =
        scoreJob rs (st.jobs.getD r {}) := by
      rw [List.getD_eq_getElem?_getD, h1]
      rfl
    rw [hmid, hget]
    rfl

/-- C8, witness: the aliasing behaviour at a concrete one-dict, one-job
state. -/
theorem c8_shallow_copy_aliasing_witness :
    (stSimple.dicts[0]? = some entriesSimple ∧
     alGet entriesSimple "keywords" = none ∧
     alGet entriesSimple "experience" = some (.vexp [0]) ∧
     ([0] : List Nat).Nodup ∧ ∀ r ∈ ([0] : List Nat), r < stSimple.jobs.length) ∧
    ((customizeSt (mkRelevanceScorer ["python"] "") 0 stSimple).1 ≠ 0 ∧
     (customizeSt (mkRelevanceScorer ["python"] "") 0 stSimple).2.dicts[0]? =
       some entriesSimple ∧
     (customizeSt (mkRelevanceScorer ["python"] "") 0 stSimple).2.dicts[
       (customizeSt (mkRelevanceScorer ["python"] "") 0 stSimple).1]? =
       some (alSet entriesSimple "keywords" (.vkw stSimple.kwdicts.length)) ∧
     (customizeSt (mkRelevanceScorer ["python"] "") 0 stSimple).2.kwdicts[
       stSimple.kwdicts.length]? =
       some (alSet [] "role_specific"
         ((mkRelevanceScorer ["python"] "").role_keywords.take 20)) ∧
     ∀ r ∈ ([0] : List Nat), ∃ j0, stSimple.jobs[r]? = some j0 ∧
       (customizeSt (mkRelevanceScorer ["python"] "") 0 stSimple).2.jobs[r]? =
         some (processJob (mkRelevanceScorer ["python"] "") j0) ∧
       ∀ a ∈ (processJob (mkRelevanceScorer ["python"] "") j0).achievements,
         a.relevance_score.isSome) :=
  ⟨⟨rfl, by decide, by decide, by decide, by decide⟩,
   c8_shallow_copy_aliasing (mkRelevanceScorer ["python"] "") stSimple 0
     entriesSimple [0] rfl (by decide) (by decide) (by decide) (by decide)⟩

/-- C9: a resume without an `experience` key customizes without error: the
result has no `experience` key either, and `keywords.role_specific` is still
populated from the job description's extracted keywords. -/
theorem c9_missing_experience (rd : ResumeData) (jd : String)
    (hexp : rd.experience = none) :
    (customize_for_role rd jd none).experience = none ∧
    ∃ m, (customize_for_role rd jd none).keywords = some m ∧
      alGet m "role_specific" = some ((extract jd).take 20) := by
  constructor
  · show rd.experience.map _ = none
    rw [hexp]
    rfl
  · exact ⟨_, rfl, alGet_alSet_self _ _ _⟩

/-- C9, witness: the guarantee at a concrete resume with no experience key. -/
theorem c9_missing_experience_witness :
    rdNoExperience.experience = none ∧
    ((customize_for_role rdNoExperience "" none).experience = none ∧
     ∃ m, (customize_for_role rdNoExperience "" none).keywords = some m ∧
       alGet m "role_specific" = some ((extract "").take 20)) :=
  ⟨rfl, c9_missing_experience rdNoExperience "" rfl⟩

/-- C10: for a fixed scorer, `customize_resume_data` is idempotent — scores
are recomputed from text/keywords/metrics only, the stable re-sort of an
already-sorted list is the identity, the force-top step reproduces itself,
and `keywords.role_specific` is overwritten with the same list. -/
theorem c10_customize_idempotent (rs : RelevanceScorer) (rd : ResumeData) :
    customize_resume_data rs (customize_resume_data rs rd) =
      customize_resume_data rs rd := by
  cases rd with
  | mk personal summary experience skills education projects keywords =>
    simp only [customize_resume_data, Option.getD_some]
    refine congrArg₂ (fun e k => ResumeData.mk personal summary e skills education projects k)
      ?_ ?_
    · cases experience with
      | none => rfl
      | some jobs =>
        show some ((jobs.map (processJob rs)).map (processJob rs)) = some (jobs.map (processJob rs))
        rw [List.map_map]
        exact congrArg some
          (List.map_congr_left fun j _ => processJob_idem rs j)
    · exact congrArg some (alSet_alSet_same _ _ _)

end ResumeForge
